import Mathlib

set_option maxHeartbeats 1000000
set_option maxRecDepth 100000

/- Verification development for the "Guard and Towers" decision engine.

The repository snapshot contains the benchmark notebooks of the engine; the
engine module itself (board model, move generator, evaluator and the three
search strategies) is exercised by those notebooks but its source file is not
part of the snapshot.  The definitions below therefore embed, on the one hand,
the data recorded verbatim in the notebook outputs, and on the other hand a
model of the missing engine built from the design document.  Each modelled
definition carries a doc comment starting with "Modelled from the spec:". -/

/-- Modelled from the spec: the two players, red and blue ('r' and 'b'). -/
inductive Side where
  | red : Side
  | blue : Side
deriving DecidableEq, Repr

/-- Modelled from the spec: opponent of a side. -/
def Side.opp : Side → Side
  | Side.red => Side.blue
  | Side.blue => Side.red

theorem Side.opp_opp (s : Side) : s.opp.opp = s := by
  cases s <;> rfl

/-- Modelled from the spec: piece kinds, Guard and Tower. -/
inductive PieceKind where
  | guard : PieceKind
  | tower : PieceKind
deriving DecidableEq, Repr

/-- Modelled from the spec: a piece is (owner, kind, stack height);
guards are created with stack height 1. -/
structure Piece where
  owner : Side
  kind : PieceKind
  height : Nat
deriving DecidableEq, Repr

/-- Modelled from the spec: the board is a 7x7 grid of optional pieces,
stored as rows indexed bottom rank first (grid[y][x], x = file, y = rank). -/
structure Board where
  grid : List (List (Option Piece))
deriving DecidableEq, Repr

/-- Read a square; out-of-range reads yield an empty square. -/
def getSq (b : Board) (x y : Nat) : Option Piece :=
  (b.grid.getD y []).getD x none

/-- Write a square; out-of-range writes are a no-op. -/
def setSq (b : Board) (x y : Nat) (v : Option Piece) : Board :=
  ⟨b.grid.set y ((b.grid.getD y []).set x v)⟩

/-- Material value of an optional cell: stack height of the piece, 0 if empty. -/
def heightO : Option Piece → Nat
  | none => 0
  | some p => p.height

/-- Material in one row. -/
def rowMat : List (Option Piece) → Nat
  | [] => 0
  | c :: r => heightO c + rowMat r

/-- Material in a grid. -/
def gridMat : List (List (Option Piece)) → Nat
  | [] => 0
  | r :: g => rowMat r + gridMat g

/-- Modelled from the spec: total piece count of a board, counting a tower of
stack height h as h pieces and a guard as its (unit) height. -/
def totalMaterial (b : Board) : Nat := gridMat b.grid

theorem list_set_of_length_le {α : Type} :
    ∀ (l : List α) (i : Nat) (v : α), l.length ≤ i → l.set i v = l := by
  intro l
  induction l with
  | nil => intro i v _; rfl
  | cons a t ih =>
    intro i v h
    cases i with
    | zero => simp at h
    | succ j =>
      simp only [List.set]
      rw [ih j v (by simpa using h)]

theorem list_getD_of_length_le {α : Type} :
    ∀ (l : List α) (i : Nat) (d : α), l.length ≤ i → l.getD i d = d := by
  intro l
  induction l with
  | nil => intro i d _; cases i <;> rfl
  | cons a t ih =>
    intro i d h
    cases i with
    | zero => simp at h
    | succ j => simpa using ih j d (by simpa using h)

theorem list_getD_set_ne {α : Type} :
    ∀ (l : List α) (i j : Nat) (v : α) (d : α), i ≠ j →
      (l.set i v).getD j d = l.getD j d := by
  intro l
  induction l with
  | nil => intro i j v d _; cases i <;> rfl
  | cons a t ih =>
    intro i j v d hne
    cases i with
    | zero =>
      cases j with
      | zero => exact absurd rfl hne
      | succ j' => rfl
    | succ i' =>
      cases j with
      | zero => rfl
      | succ j' =>
        simpa using ih i' j' v d (fun h => hne (by rw [h]))

theorem list_set_getD_self {α : Type} :
    ∀ (l : List α) (i : Nat) (d : α), i < l.length → l.set i (l.getD i d) = l := by
  intro l
  induction l with
  | nil => intro i d h; simp at h
  | cons a t ih =>
    intro i d h
    cases i with
    | zero => rfl
    | succ i' =>
      simp only [List.getD_cons_succ, List.set]
      rw [ih i' d (by simpa using h)]

theorem rowMat_set :
    ∀ (r : List (Option Piece)) (x : Nat) (v : Option Piece), x < r.length →
      rowMat (r.set x v) + heightO (r.getD x none) = rowMat r + heightO v := by
  intro r
  induction r with
  | nil => intro x v h; simp at h
  | cons c t ih =>
    intro x v h
    cases x with
    | zero => simp [rowMat]; omega
    | succ x' =>
      simp only [List.set, rowMat, List.getD_cons_succ]
      have := ih x' v (by simpa using h)
      omega

theorem gridMat_set :
    ∀ (g : List (List (Option Piece))) (y : Nat) (row : List (Option Piece)),
      y < g.length →
      gridMat (g.set y row) + rowMat (g.getD y []) = gridMat g + rowMat row := by
  intro g
  induction g with
  | nil => intro y row h; simp at h
  | cons r t ih =>
    intro y row h
    cases y with
    | zero => simp [gridMat]; omega
    | succ y' =>
      simp only [List.set, gridMat, List.getD_cons_succ]
      have := ih y' row (by simpa using h)
      omega

/-- Updating one square changes total material by the height difference when
the square exists, and otherwise leaves the board unchanged with an empty read. -/
theorem totalMaterial_setSq (b : Board) (x y : Nat) (v : Option Piece) :
    totalMaterial (setSq b x y v) + heightO (getSq b x y)
        = totalMaterial b + heightO v
    ∨ (setSq b x y v = b ∧ getSq b x y = none) := by
  by_cases hy : y < b.grid.length
  · by_cases hx : x < (b.grid.getD y []).length
    · left
      have h1 := gridMat_set b.grid y ((b.grid.getD y []).set x v) hy
      have h2 := rowMat_set (b.grid.getD y []) x v hx
      simp only [totalMaterial, setSq, getSq]
      omega
    · right
      constructor
      · simp only [setSq]
        rw [list_set_of_length_le _ x v (by omega)]
        cases b with
        | mk g =>
          simp only [Board.mk.injEq]
          exact list_set_getD_self g y [] hy
      · simp only [getSq]
        rw [list_getD_of_length_le _ x none (by omega)]
  · right
    constructor
    · simp only [setSq]
      cases b with
      | mk g =>
        simp only [Board.mk.injEq]
        exact list_set_of_length_le g y _ (Nat.le_of_not_lt (by simpa using hy))
    · simp only [getSq]
      rw [list_getD_of_length_le b.grid y [] (by omega)]
      rfl

/-- Modelled from the spec: a move is (from square, to square, magnitude);
notation "<from>-<to>-<magnitude>". -/
structure Move where
  fx : Nat
  fy : Nat
  tx : Nat
  ty : Nat
  mag : Nat
deriving DecidableEq, Repr

/-- The four orthogonal directions. -/
def dirs : List (Int × Int) := [(1, 0), (-1, 0), (0, 1), (0, -1)]

/-- Read a square at possibly-off-board integer coordinates. -/
def sqInt (b : Board) (x y : Int) : Option Piece :=
  if 0 ≤ x ∧ x < 7 ∧ 0 ≤ y ∧ y < 7 then getSq b x.toNat y.toNat else none

/-- Basic geometric sanity of a move: on-board endpoints, positive magnitude. -/
def geomOK (m : Move) : Bool :=
  decide (m.fx < 7) && decide (m.fy < 7) && decide (m.tx < 7) && decide (m.ty < 7)
    && decide (1 ≤ m.mag)

/-- The move travels exactly its magnitude along direction d. -/
def alignedDir (m : Move) (d : Int × Int) : Bool :=
  decide ((m.tx : Int) = (m.fx : Int) + (m.mag : Int) * d.1)
    && decide ((m.ty : Int) = (m.fy : Int) + (m.mag : Int) * d.2)

/-- All intermediate squares along direction d are empty. -/
def pathClearDir (b : Board) (m : Move) (d : Int × Int) : Bool :=
  (List.range (m.mag - 1)).all fun i =>
    sqInt b ((m.fx : Int) + (i + 1 : Nat) * d.1) ((m.fy : Int) + (i + 1 : Nat) * d.2) == none

/-- The move runs along some orthogonal line with a clear path. -/
def pathOK (b : Board) (m : Move) : Bool :=
  dirs.any fun d => alignedDir m d && pathClearDir b m d

/-- Modelled from the spec: a guard steps a single square; a tower moves a
substack of 1..height pieces a distance equal to the substack size. -/
def kindOK (p : Piece) (m : Move) : Bool :=
  match p.kind with
  | PieceKind.guard => m.mag == 1
  | PieceKind.tower => decide (1 ≤ m.mag) && decide (m.mag ≤ p.height)

/-- Modelled from the spec: destination rule.  An empty square is always
allowed; own towers may be merged onto by towers; own guards block; an enemy
tower is captured when its stack height does not exceed the moved magnitude;
an enemy guard is always capturable. -/
def destOK (b : Board) (p : Piece) (m : Move) : Bool :=
  match getSq b m.tx m.ty with
  | none => true
  | some q =>
    if q.owner = p.owner then p.kind == PieceKind.tower && q.kind == PieceKind.tower
    else
      match q.kind with
      | PieceKind.guard => true
      | PieceKind.tower => decide (q.height ≤ m.mag)

/-- Modelled from the spec: full legality of a move for a side. -/
def legalMove (b : Board) (s : Side) (m : Move) : Bool :=
  match getSq b m.fx m.fy with
  | none => false
  | some p => p.owner == s && geomOK m && kindOK p m && pathOK b m && destOK b p m

/-- What remains on the source square after the move. -/
def residue (p : Piece) (m : Move) : Option Piece :=
  match p.kind with
  | PieceKind.guard => none
  | PieceKind.tower =>
    if m.mag < p.height then some ⟨p.owner, PieceKind.tower, p.height - m.mag⟩ else none

/-- The moved piece, before interaction with the destination square. -/
def movedPiece (p : Piece) (m : Move) : Piece :=
  match p.kind with
  | PieceKind.guard => p
  | PieceKind.tower => ⟨p.owner, PieceKind.tower, m.mag⟩

/-- The piece standing on the destination square after the move. -/
def landing (b : Board) (p : Piece) (m : Move) : Piece :=
  match getSq b m.tx m.ty with
  | some q =>
    if q.owner = p.owner then ⟨p.owner, PieceKind.tower, q.height + m.mag⟩
    else movedPiece p m
  | none => movedPiece p m

/-- Modelled from the spec: apply a move to a board, validating it and
failing (the IllegalMove branch) when it is not applicable. -/
def applyMove (b : Board) (m : Move) : Option Board :=
  match getSq b m.fx m.fy with
  | none => none
  | some p =>
    if geomOK m && kindOK p m && pathOK b m && destOK b p m then
      some (setSq (setSq b m.fx m.fy (residue p m)) m.tx m.ty (some (landing b p m)))
    else none

/-- Largest substack a piece can move. -/
def maxMag (p : Piece) : Nat :=
  match p.kind with
  | PieceKind.guard => 1
  | PieceKind.tower => p.height

/-- Geometric move candidates for one piece. -/
def pieceCandidates (x y : Nat) (p : Piece) : List Move :=
  (List.range (maxMag p)).flatMap fun k0 =>
    dirs.filterMap fun d =>
      let k := k0 + 1
      let tx : Int := (x : Int) + (k : Int) * d.1
      let ty : Int := (y : Int) + (k : Int) * d.2
      if 0 ≤ tx ∧ tx < 7 ∧ 0 ≤ ty ∧ ty < 7 then some ⟨x, y, tx.toNat, ty.toNat, k⟩
      else none

/-- Modelled from the spec: generate_moves(board, side) returns every legal
move of the given side, in scan order of the grid. -/
def generate_moves (b : Board) (s : Side) : List Move :=
  (List.range 7).flatMap fun y =>
    (List.range 7).flatMap fun x =>
      match getSq b x y with
      | none => []
      | some p =>
        if p.owner = s then (pieceCandidates x y p).filter (legalMove b s) else []

/-- Material owned by a side in one cell. -/
def cellVal (s : Side) : Option Piece → Nat
  | none => 0
  | some p => if p.owner = s then p.height else 0

/-- Guard material owned by a side in one cell (unit-height guards weigh 1). -/
def cellGuard (s : Side) : Option Piece → Nat
  | none => 0
  | some p => if p.owner = s ∧ p.kind = PieceKind.guard then p.height else 0

/-- Side material in one row. -/
def rowValFor (s : Side) : List (Option Piece) → Nat
  | [] => 0
  | c :: r => cellVal s c + rowValFor s r

/-- Side guard material in one row. -/
def rowGuardFor (s : Side) : List (Option Piece) → Nat
  | [] => 0
  | c :: r => cellGuard s c + rowGuardFor s r

/-- Side material in a grid. -/
def gridValFor (s : Side) : List (List (Option Piece)) → Nat
  | [] => 0
  | r :: g => rowValFor s r + gridValFor s g

/-- Side guard material in a grid. -/
def gridGuardFor (s : Side) : List (List (Option Piece)) → Nat
  | [] => 0
  | r :: g => rowGuardFor s r + gridGuardFor s g

/-- Stack-height-weighted material of one side. -/
def unitsFor (b : Board) (s : Side) : Nat := gridValFor s b.grid

/-- Guard material of one side. -/
def guardsFor (b : Board) (s : Side) : Nat := gridGuardFor s b.grid

/-- Modelled from the spec: evaluate(board, side) is a deterministic function
of the board alone: stack-height-weighted material difference plus a guard
term, both taken from the given side's perspective. -/
def evaluate (b : Board) (s : Side) : Int :=
  100 * ((unitsFor b s : Int) - (unitsFor b s.opp : Int))
    + 1000 * ((guardsFor b s : Int) - (guardsFor b s.opp : Int))

/-- C3: the evaluator is zero-sum: for every board and side, the score for a
side is the negation of the score for the opponent; being a plain function of
the board and side, it is deterministic by construction. -/
theorem claim_C3_evaluate_zero_sum (b : Board) (s : Side) :
    evaluate b s = -(evaluate b s.opp) := by
  simp only [evaluate, Side.opp_opp]
  ring

theorem list_getD_set_self {α : Type} :
    ∀ (l : List α) (i : Nat) (v d : α), i < l.length → (l.set i v).getD i d = v := by
  intro l
  induction l with
  | nil => intro i v d h; simp at h
  | cons a t ih =>
    intro i v d h
    cases i with
    | zero => rfl
    | succ i' => simpa using ih i' v d (by simpa using h)

theorem getSq_some_bounds (b : Board) (x y : Nat) (p : Piece)
    (h : getSq b x y = some p) :
    y < b.grid.length ∧ x < (b.grid.getD y []).length := by
  constructor
  · by_contra hc
    rw [getSq, list_getD_of_length_le b.grid y [] (Nat.le_of_not_lt hc)] at h
    simp at h
  · by_contra hc
    rw [getSq, list_getD_of_length_le _ x none (Nat.le_of_not_lt hc)] at h
    simp at h

theorem getSq_setSq_ne (b : Board) (x y x' y' : Nat) (v : Option Piece)
    (h : x' ≠ x ∨ y' ≠ y) :
    getSq (setSq b x y v) x' y' = getSq b x' y' := by
  simp only [getSq, setSq]
  rcases h with h | h
  · by_cases hy : y' = y
    · subst hy
      by_cases hyl : y' < b.grid.length
      · rw [list_getD_set_self b.grid y' _ [] hyl,
          list_getD_set_ne _ x x' v none (fun hh => h hh.symm)]
      · rw [list_set_of_length_le b.grid y' _ (Nat.le_of_not_lt hyl)]
    · rw [list_getD_set_ne b.grid y y' _ [] (fun hh => hy hh.symm)]
  · rw [list_getD_set_ne b.grid y y' _ [] (fun hh => h hh.symm)]

theorem pathOK_dest_ne (b : Board) (m : Move) (hp : pathOK b m = true)
    (hm : 1 ≤ m.mag) : m.tx ≠ m.fx ∨ m.ty ≠ m.fy := by
  simp only [pathOK, List.any_eq_true, Bool.and_eq_true] at hp
  obtain ⟨d, hd, hal, _⟩ := hp
  simp only [alignedDir, Bool.and_eq_true, decide_eq_true_eq] at hal
  obtain ⟨h1, h2⟩ := hal
  simp only [dirs, List.mem_cons, List.not_mem_nil, or_false] at hd
  rcases hd with h | h | h | h <;> subst h <;> simp at h1 h2 <;> omega


theorem heightO_some (p : Piece) : heightO (some p) = p.height := rfl

theorem heightO_none : heightO none = 0 := rfl

theorem residue_guard (po : Side) (ph : Nat) (m : Move) :
    residue ⟨po, PieceKind.guard, ph⟩ m = none := rfl

theorem residue_tower (po : Side) (ph : Nat) (m : Move) :
    residue ⟨po, PieceKind.tower, ph⟩ m
      = if m.mag < ph then some ⟨po, PieceKind.tower, ph - m.mag⟩ else none := rfl

theorem movedPiece_guard (po : Side) (ph : Nat) (m : Move) :
    movedPiece ⟨po, PieceKind.guard, ph⟩ m = ⟨po, PieceKind.guard, ph⟩ := rfl

theorem movedPiece_tower (po : Side) (ph : Nat) (m : Move) :
    movedPiece ⟨po, PieceKind.tower, ph⟩ m = ⟨po, PieceKind.tower, m.mag⟩ := rfl

theorem kindOK_tower (po : Side) (ph : Nat) (m : Move) :
    kindOK ⟨po, PieceKind.tower, ph⟩ m
      = (decide (1 ≤ m.mag) && decide (m.mag ≤ ph)) := rfl

theorem kind_mk (po : Side) (k : PieceKind) (ph : Nat) :
    (⟨po, k, ph⟩ : Piece).kind = k := rfl

theorem height_mk (po : Side) (k : PieceKind) (ph : Nat) :
    (⟨po, k, ph⟩ : Piece).height = ph := rfl

theorem residue_height_le (p : Piece) (m : Move) :
    heightO (residue p m) ≤ p.height := by
  obtain ⟨po, pk, ph⟩ := p
  cases pk
  · rw [residue_guard, heightO_none]
    exact Nat.zero_le _
  · rw [residue_tower]
    split
    · rw [heightO_some]
      simp only [height_mk]
      omega
    · rw [heightO_none]
      exact Nat.zero_le _

theorem landing_residue_le (b : Board) (p : Piece) (m : Move)
    (hk : kindOK p m = true) (hd : destOK b p m = true) :
    heightO (residue p m) + (landing b p m).height
      ≤ p.height + heightO (getSq b m.tx m.ty) := by
  obtain ⟨po, pk, ph⟩ := p
  cases hq : getSq b m.tx m.ty with
  | none =>
    rw [landing]
    simp only [hq, heightO_none]
    cases pk
    · rw [residue_guard, movedPiece_guard, heightO_none]
      simp only [height_mk]
      omega
    · rw [kindOK_tower, Bool.and_eq_true, decide_eq_true_eq, decide_eq_true_eq] at hk
      rw [residue_tower, movedPiece_tower]
      split
      · rw [heightO_some]; simp only [height_mk]; omega
      · rw [heightO_none]; simp only [height_mk]; omega
  | some q =>
    rw [landing]
    simp only [hq, heightO_some]
    by_cases ho : q.owner = po
    · rw [destOK] at hd
      simp only [hq] at hd
      rw [if_pos (by simpa using ho)] at hd
      simp only [Bool.and_eq_true, beq_iff_eq] at hd
      obtain ⟨hpk, hqk⟩ := hd
      subst hpk
      rw [kindOK_tower, Bool.and_eq_true, decide_eq_true_eq, decide_eq_true_eq] at hk
      rw [if_pos (by simpa using ho)]
      rw [residue_tower]
      split
      · rw [heightO_some]; simp only [height_mk]; omega
      · rw [heightO_none]; simp only [height_mk]; omega
    · rw [if_neg (by simpa using ho)]
      cases pk
      · rw [residue_guard, movedPiece_guard, heightO_none]
        simp only [height_mk]
        omega
      · rw [kindOK_tower, Bool.and_eq_true, decide_eq_true_eq, decide_eq_true_eq] at hk
        rw [residue_tower, movedPiece_tower]
        split
        · rw [heightO_some]; simp only [height_mk]; omega
        · rw [heightO_none]; simp only [height_mk]; omega

theorem applyMove_isSome_of_legal (b : Board) (s : Side) (m : Move)
    (h : legalMove b s m = true) : (applyMove b m).isSome = true := by
  cases hsrc : getSq b m.fx m.fy with
  | none => rw [legalMove] at h; simp only [hsrc] at h; exact absurd h (by simp)
  | some p =>
    rw [legalMove] at h
    simp only [hsrc] at h
    simp only [Bool.and_eq_true] at h
    obtain ⟨⟨⟨⟨_, hg⟩, hk⟩, hp⟩, hd⟩ := h
    simp [applyMove, hsrc, hg, hk, hp, hd]

theorem applyMove_material_le (b b' : Board) (m : Move)
    (h : applyMove b m = some b') : totalMaterial b' ≤ totalMaterial b := by
  cases hsrc : getSq b m.fx m.fy with
  | none =>
    rw [applyMove] at h
    simp only [hsrc] at h
    exact absurd h (by simp)
  | some p =>
    rw [applyMove] at h
    simp only [hsrc] at h
    by_cases hcond : (geomOK m && kindOK p m && pathOK b m && destOK b p m) = true
    · rw [if_pos hcond] at h
      simp only [Bool.and_eq_true] at hcond
      obtain ⟨⟨⟨hg, hk⟩, hp⟩, hd⟩ := hcond
      have hmag : 1 ≤ m.mag := by
        simp only [geomOK, Bool.and_eq_true, decide_eq_true_eq] at hg
        exact hg.2
      have hne := pathOK_dest_ne b m hp hmag
      have hb' : b' = setSq (setSq b m.fx m.fy (residue p m)) m.tx m.ty
          (some (landing b p m)) := by
        cases h; rfl
      have h1 := totalMaterial_setSq b m.fx m.fy (residue p m)
      rcases h1 with h1 | h1
      · rw [hsrc, heightO_some] at h1
        have hget : getSq (setSq b m.fx m.fy (residue p m)) m.tx m.ty
            = getSq b m.tx m.ty :=
          getSq_setSq_ne b m.fx m.fy m.tx m.ty (residue p m) hne
        have h2 := totalMaterial_setSq (setSq b m.fx m.fy (residue p m)) m.tx m.ty
          (some (landing b p m))
        have hkey := landing_residue_le b p m hk hd
        rcases h2 with h2 | h2
        · rw [hget, heightO_some] at h2
          rw [hb']
          omega
        · rw [hb', h2.1]
          have hres := residue_height_le p m
          omega
      · rw [hsrc] at h1
        exact absurd h1.2 (by simp)
    · rw [if_neg hcond] at h
      exact absurd h (by simp)

theorem mem_generate_moves_legal (b : Board) (s : Side) (m : Move)
    (h : m ∈ generate_moves b s) : legalMove b s m = true := by
  simp only [generate_moves, List.mem_flatMap] at h
  obtain ⟨y, _, x, _, hm⟩ := h
  rcases hgp : getSq b x y with _ | p
  · simp only [hgp] at hm
    exact absurd hm (by simp)
  · simp only [hgp] at hm
    by_cases ho : p.owner = s
    · simp only [ho, if_true] at hm
      exact (List.mem_filter.mp hm).2
    · simp only [ho, if_false] at hm
      exact absurd hm (by simp)

/-- C4: every generated move applies without reaching the error branch, and
application never increases the total piece count (captures only remove). -/
theorem claim_C4_move_legality_closure (b : Board) (s : Side) (m : Move)
    (h : m ∈ generate_moves b s) :
    (applyMove b m).isSome = true
      ∧ totalMaterial ((applyMove b m).getD b) ≤ totalMaterial b := by
  have hl := mem_generate_moves_legal b s m h
  have hs := applyMove_isSome_of_legal b s m hl
  refine ⟨hs, ?_⟩
  cases happ : applyMove b m with
  | none => rw [happ] at hs; exact absurd hs (by simp)
  | some b' => exact applyMove_material_le b b' m happ

/-- Modelled from the spec: decisive win magnitude, exceeding heuristic scores. -/
def MATE : Int := 1000000

/-- Modelled from the spec: score of a position whose side to move has no
legal move, with f plies of budget left: a decisive loss, and larger in
magnitude when found shallower (more budget left). -/
def lossScore (f : Nat) : Int := -(MATE + f)

/-- Successor board of a move: the applied board (identity on failure). -/
def childB (b : Board) (m : Move) : Board := (applyMove b m).getD b

/-- Modelled from the spec: exhaustive fixed-depth negamax minimax, the
reference oracle search (find_best_move_MM's backed-up score). -/
def mmScore : Nat → Board → Side → Int
  | 0, b, s => evaluate b s
  | f+1, b, s =>
    match generate_moves b s with
    | [] => lossScore (f+1)
    | m :: ms =>
      ms.foldl (fun best m' => max best (-(mmScore f (childB b m') s.opp)))
        (-(mmScore f (childB b m) s.opp))

/-- Modelled from the spec: fail-soft alpha-beta negamax score with window
(al, be) and beta cutoffs (find_best_move's backed-up score). -/
def abScore : Nat → Board → Side → Int → Int → Int
  | 0, b, s, _, _ => evaluate b s
  | f+1, b, s, al, be =>
    match generate_moves b s with
    | [] => lossScore (f+1)
    | m :: ms =>
      ms.foldl (fun best m' =>
          if be ≤ best then best
          else max best (-(abScore f (childB b m') s.opp (-be) (-(max al best)))))
        (-(abScore f (childB b m) s.opp (-be) (-al)))

/-- One minimax fold step over sibling moves. -/
def mmStep (f : Nat) (b : Board) (s : Side) (best : Int) (m : Move) : Int :=
  max best (-(mmScore f (childB b m) s.opp))

/-- One alpha-beta fold step over sibling moves. -/
def abStep (f : Nat) (b : Board) (s : Side) (al be : Int) (best : Int) (m : Move) : Int :=
  if be ≤ best then best
  else max best (-(abScore f (childB b m) s.opp (-be) (-(max al best))))

theorem mmScore_nil (f : Nat) (b : Board) (s : Side)
    (h : generate_moves b s = []) : mmScore (f+1) b s = lossScore (f+1) := by
  rw [mmScore, h]

theorem mmScore_cons (f : Nat) (b : Board) (s : Side) (m : Move) (ms : List Move)
    (h : generate_moves b s = m :: ms) :
    mmScore (f+1) b s = ms.foldl (mmStep f b s) (-(mmScore f (childB b m) s.opp)) := by
  rw [mmScore, h]
  rfl

theorem abScore_nil (f : Nat) (b : Board) (s : Side) (al be : Int)
    (h : generate_moves b s = []) : abScore (f+1) b s al be = lossScore (f+1) := by
  rw [abScore, h]

theorem abScore_cons (f : Nat) (b : Board) (s : Side) (al be : Int)
    (m : Move) (ms : List Move) (h : generate_moves b s = m :: ms) :
    abScore (f+1) b s al be
      = ms.foldl (abStep f b s al be) (-(abScore f (childB b m) s.opp (-be) (-al))) := by
  rw [abScore, h]
  rfl

/-- Fail-soft alpha-beta soundness conditions at one node: the returned value
is an upper bound when failing low, a lower bound when failing high, and the
exact minimax value when inside the window. -/
def KMcond (f : Nat) (b : Board) (s : Side) (al be : Int) : Prop :=
  (abScore f b s al be ≤ al → mmScore f b s ≤ abScore f b s al be)
  ∧ (be ≤ abScore f b s al be → abScore f b s al be ≤ mmScore f b s)
  ∧ (al < abScore f b s al be → abScore f b s al be < be
      → abScore f b s al be = mmScore f b s)

theorem fold_cut (f : Nat) (b : Board) (s : Side) (al be : Int) :
    ∀ (ms : List Move) (B : Int), be ≤ B →
      ms.foldl (abStep f b s al be) B = B := by
  intro ms
  induction ms with
  | nil => intro B _; rfl
  | cons m rest ih =>
    intro B h
    rw [List.foldl_cons]
    have hstep : abStep f b s al be B m = B := by
      rw [abStep, if_pos h]
    rw [hstep]
    exact ih B h

theorem fold_mm_ge (f : Nat) (b : Board) (s : Side) :
    ∀ (ms : List Move) (V : Int), V ≤ ms.foldl (mmStep f b s) V := by
  intro ms
  induction ms with
  | nil => intro V; exact le_refl V
  | cons m rest ih =>
    intro V
    rw [List.foldl_cons]
    exact le_trans (le_max_left _ _) (ih (mmStep f b s V m))

theorem abFold_KM (f : Nat) (b : Board) (s : Side) (al be : Int) (hw : al < be)
    (ihf : ∀ b' s' al' be', al' < be' → KMcond f b' s' al' be') :
    ∀ (ms : List Move) (B V : Int),
      (B ≤ al → V ≤ B) → (be ≤ B → B ≤ V) → (al < B → B < be → B = V) →
      ((ms.foldl (abStep f b s al be) B ≤ al
          → ms.foldl (mmStep f b s) V ≤ ms.foldl (abStep f b s al be) B)
        ∧ (be ≤ ms.foldl (abStep f b s al be) B
          → ms.foldl (abStep f b s al be) B ≤ ms.foldl (mmStep f b s) V)
        ∧ (al < ms.foldl (abStep f b s al be) B
          → ms.foldl (abStep f b s al be) B < be
          → ms.foldl (abStep f b s al be) B = ms.foldl (mmStep f b s) V)) := by
  intro ms
  induction ms with
  | nil =>
    intro B V h1 h2 h3
    exact ⟨h1, h2, h3⟩
  | cons m rest ih =>
    intro B V h1 h2 h3
    rw [List.foldl_cons, List.foldl_cons]
    by_cases hcut : be ≤ B
    · have hstep : abStep f b s al be B m = B := by rw [abStep, if_pos hcut]
      rw [hstep]
      refine ih B (mmStep f b s V m) ?_ ?_ ?_
      · intro h; omega
      · intro h
        exact le_trans (h2 hcut) (le_max_left _ _)
      · intro _ h; omega
    · have hBlt : B < be := not_le.mp hcut
      have hstep : abStep f b s al be B m
          = max B (-(abScore f (childB b m) s.opp (-be) (-(max al B)))) := by
        rw [abStep, if_neg hcut]
      rw [hstep]
      have hal' : max al B < be := max_lt hw hBlt
      obtain ⟨c1, c2, c3⟩ := ihf (childB b m) s.opp (-be) (-(max al B)) (by omega)
      set rc := abScore f (childB b m) s.opp (-be) (-(max al B)) with hrc
      set vc := mmScore f (childB b m) s.opp with hvc
      have hmmstep : mmStep f b s V m = max V (-vc) := by rw [mmStep]
      rw [hmmstep]
      have halB : al ≤ max al B := le_max_left _ _
      have hBB : B ≤ max al B := le_max_right _ _
      refine ih (max B (-rc)) (max V (-vc)) ?_ ?_ ?_
      · intro h
        have hBal : B ≤ al := le_trans (le_max_left _ _) h
        have hval : -rc ≤ al := le_trans (le_max_right _ _) h
        have hv1 : V ≤ B := h1 hBal
        have h5 : -(max al B) ≤ rc := by omega
        have h6 := c2 h5
        exact max_le (le_trans hv1 (le_max_left _ _)) (by omega)
      · intro h
        rcases le_max_iff.mp h with h' | h'
        · omega
        · have hBrc : B ≤ -rc := by omega
          rw [max_eq_right hBrc]
          have h7 : rc ≤ -be := by omega
          have h8 := c1 h7
          exact le_trans (by omega) (le_max_right _ _)
      · intro hl hh
        by_cases hvB : -rc ≤ B
        · have hBp : max B (-rc) = B := max_eq_left hvB
          rw [hBp] at hl hh ⊢
          have hBV := h3 hl hh
          have hala : max al B = B := max_eq_right (le_of_lt hl)
          have h5 : -(max al B) ≤ rc := by omega
          have h6 := c2 h5
          have hvcV : -vc ≤ V := by omega
          rw [max_eq_left hvcV]
          exact hBV
        · have hBrc : B ≤ -rc := le_of_lt (not_le.mp hvB)
          have hBp : max B (-rc) = -rc := max_eq_right hBrc
          rw [hBp] at hl hh ⊢
          have h9 : -be < rc := by omega
          have h10 : rc < -(-(max al B)) → True := fun _ => trivial
          have hmaxlt : max al B < -rc := max_lt hl (not_le.mp hvB)
          have h11 := c3 h9 (by omega)
          have hVle : V ≤ -rc := by
            by_cases hBal : al < B
            · have := h3 hBal hBlt
              omega
            · have hBa : B ≤ al := not_lt.mp hBal
              have := h1 hBa
              omega
          rw [max_eq_right (by omega : V ≤ -vc)]
          omega

theorem abScore_KM :
    ∀ (f : Nat) (b : Board) (s : Side) (al be : Int), al < be → KMcond f b s al be := by
  intro f
  induction f with
  | zero =>
    intro b s al be _
    refine ⟨fun _ => le_refl _, fun _ => le_refl _, fun _ _ => rfl⟩
  | succ f ihf =>
    intro b s al be hw
    cases hg : generate_moves b s with
    | nil =>
      rw [KMcond, abScore_nil f b s al be hg, mmScore_nil f b s hg]
      exact ⟨fun _ => le_refl _, fun _ => le_refl _, fun _ _ => rfl⟩
    | cons m ms =>
      rw [KMcond, abScore_cons f b s al be m ms hg, mmScore_cons f b s m ms hg]
      obtain ⟨c1, c2, c3⟩ := ihf (childB b m) s.opp (-be) (-al) (by omega)
      set rc := abScore f (childB b m) s.opp (-be) (-al) with hrc
      set vc := mmScore f (childB b m) s.opp with hvc
      refine abFold_KM f b s al be hw ihf ms (-rc) (-vc) ?_ ?_ ?_
      · intro h
        have h5 : -al ≤ rc := by omega
        have h6 := c2 h5
        omega
      · intro h
        have h7 : rc ≤ -be := by omega
        have h8 := c1 h7
        omega
      · intro hl hh
        have h11 := c3 (by omega) (by omega)
        omega

theorem cellVal_le (s : Side) (c : Option Piece) : cellVal s c ≤ heightO c := by
  cases c with
  | none => exact le_refl 0
  | some p =>
    rw [cellVal, heightO_some]
    split
    · exact le_refl _
    · exact Nat.zero_le _

theorem cellGuard_le (s : Side) (c : Option Piece) : cellGuard s c ≤ heightO c := by
  cases c with
  | none => exact le_refl 0
  | some p =>
    rw [cellGuard, heightO_some]
    split
    · exact le_refl _
    · exact Nat.zero_le _

theorem rowValFor_le (s : Side) : ∀ r, rowValFor s r ≤ rowMat r := by
  intro r
  induction r with
  | nil => exact le_refl 0
  | cons c t ih =>
    rw [rowValFor, rowMat]
    exact Nat.add_le_add (cellVal_le s c) ih

theorem rowGuardFor_le (s : Side) : ∀ r, rowGuardFor s r ≤ rowMat r := by
  intro r
  induction r with
  | nil => exact le_refl 0
  | cons c t ih =>
    rw [rowGuardFor, rowMat]
    exact Nat.add_le_add (cellGuard_le s c) ih

theorem unitsFor_le (b : Board) (s : Side) : unitsFor b s ≤ totalMaterial b := by
  rw [unitsFor, totalMaterial]
  induction b.grid with
  | nil => exact le_refl 0
  | cons r g ih =>
    rw [gridValFor, gridMat]
    exact Nat.add_le_add (rowValFor_le s r) ih

theorem guardsFor_le (b : Board) (s : Side) : guardsFor b s ≤ totalMaterial b := by
  rw [guardsFor, totalMaterial]
  induction b.grid with
  | nil => exact le_refl 0
  | cons r g ih =>
    rw [gridGuardFor, gridMat]
    exact Nat.add_le_add (rowGuardFor_le s r) ih

theorem evaluate_abs_le (b : Board) (s : Side) :
    |evaluate b s| ≤ 1100 * (totalMaterial b : Int) := by
  have h1 := unitsFor_le b s
  have h2 := unitsFor_le b s.opp
  have h3 := guardsFor_le b s
  have h4 := guardsFor_le b s.opp
  rw [abs_le]
  constructor <;> simp only [evaluate] <;> omega

theorem childB_material_le (b : Board) (m : Move) :
    totalMaterial (childB b m) ≤ totalMaterial b := by
  rw [childB]
  cases h : applyMove b m with
  | none => exact le_refl _
  | some b' => exact applyMove_material_le b b' m h

theorem mm_fold_abs (f : Nat) (b : Board) (s : Side) (M : Int) :
    ∀ (ms : List Move) (B : Int), |B| ≤ M →
      (∀ m' ∈ ms, |mmScore f (childB b m') s.opp| ≤ M) →
      |ms.foldl (mmStep f b s) B| ≤ M := by
  intro ms
  induction ms with
  | nil => intro B hB _; exact hB
  | cons m rest ih =>
    intro B hB hmem
    rw [List.foldl_cons]
    refine ih _ ?_ (fun m' hm' => hmem m' (List.mem_cons_of_mem m hm'))
    rw [mmStep]
    refine le_trans abs_max_le_max_abs_abs (max_le hB ?_)
    rw [abs_neg]
    exact hmem m (List.mem_cons_self m rest)

theorem mm_abs_le :
    ∀ (f : Nat) (b : Board) (s : Side),
      |mmScore f b s| ≤ 1100 * (totalMaterial b : Int) + MATE + f := by
  intro f
  induction f with
  | zero =>
    intro b s
    refine le_trans (evaluate_abs_le b s) ?_
    simp only [MATE]
    omega
  | succ f ihf =>
    intro b s
    cases hg : generate_moves b s with
    | nil =>
      rw [mmScore_nil f b s hg, lossScore]
      rw [abs_neg, abs_of_nonneg (by simp only [MATE]; omega)]
      simp only [MATE]
      omega
    | cons m ms =>
      rw [mmScore_cons f b s m ms hg]
      refine mm_fold_abs f b s _ ms _ ?_ ?_
      · rw [abs_neg]
        refine le_trans (ihf (childB b m) s.opp) ?_
        have := childB_material_le b m
        push_cast
        omega
      · intro m' _
        refine le_trans (ihf (childB b m') s.opp) ?_
        have := childB_material_le b m'
        push_cast
        omega

/-- Modelled from the spec: the "infinite" root window used by the alpha-beta
entry point, strictly wider than any achievable backed-up score. -/
def INF (b : Board) (d : Nat) : Int := 1100 * (totalMaterial b : Int) + MATE + d + 1

theorem abScore_eq_mmScore (b : Board) (s : Side) (d : Nat) :
    abScore d b s (-(INF b d)) (INF b d) = mmScore d b s := by
  have hw : -(INF b d) < INF b d := by
    simp only [INF, MATE]
    omega
  obtain ⟨c1, c2, c3⟩ := abScore_KM d b s (-(INF b d)) (INF b d) hw
  have hX := abs_le.mp (mm_abs_le d b s)
  by_cases hlow : abScore d b s (-(INF b d)) (INF b d) ≤ -(INF b d)
  · have := c1 hlow
    simp only [INF] at *
    omega
  · by_cases hhigh : INF b d ≤ abScore d b s (-(INF b d)) (INF b d)
    · have := c2 hhigh
      simp only [INF] at *
      omega
    · exact c3 (by omega) (by omega)

/-- One minimax root fold step carrying the best move with its score. -/
def mmPairStep (f : Nat) (b : Board) (s : Side) (best : Move × Int) (m : Move) :
    Move × Int :=
  let v := -(mmScore f (childB b m) s.opp)
  if best.2 < v then (m, v) else best

/-- Modelled from the spec: find_best_move_MM — exhaustive minimax entry
point; returns the first score-optimal move in generation order together with
its backed-up score, or nothing at a terminal position or depth 0. -/
def find_best_move_MM (b : Board) (s : Side) (base_depth : Nat) :
    Option (Move × Int) :=
  match base_depth with
  | 0 => none
  | d+1 =>
    match generate_moves b s with
    | [] => none
    | m :: ms => some (ms.foldl (mmPairStep d b s) (m, -(mmScore d (childB b m) s.opp)))

/-- One alpha-beta root fold step carrying the best move with its score. -/
def abPairStep (f : Nat) (b : Board) (s : Side) (al be : Int)
    (best : Move × Int) (m : Move) : Move × Int :=
  if be ≤ best.2 then best
  else
    let v := -(abScore f (childB b m) s.opp (-be) (-(max al best.2)))
    if best.2 < v then (m, v) else best

/-- Modelled from the spec: find_best_move — alpha-beta entry point searched
under the full root window; returns a score-optimal move with its backed-up
score, or nothing at a terminal position or depth 0. -/
def find_best_move (b : Board) (s : Side) (base_depth : Nat) :
    Option (Move × Int) :=
  match base_depth with
  | 0 => none
  | d+1 =>
    match generate_moves b s with
    | [] => none
    | m :: ms =>
      some (ms.foldl (abPairStep d b s (-(INF b (d+1))) (INF b (d+1)))
        (m, -(abScore d (childB b m) s.opp (-(INF b (d+1))) (INF b (d+1)))))

theorem mmPair_proj (f : Nat) (b : Board) (s : Side) :
    ∀ (ms : List Move) (p : Move × Int),
      (ms.foldl (mmPairStep f b s) p).2 = ms.foldl (mmStep f b s) p.2 := by
  intro ms
  induction ms with
  | nil => intro p; rfl
  | cons m rest ih =>
    intro p
    rw [List.foldl_cons, List.foldl_cons, ih]
    have hstep : (mmPairStep f b s p m).2 = mmStep f b s p.2 m := by
      rw [mmPairStep, mmStep]
      by_cases hv : p.2 < -(mmScore f (childB b m) s.opp)
      · simp only [if_pos hv]
        exact (max_eq_right (le_of_lt hv)).symm
      · simp only [if_neg hv]
        exact (max_eq_left (not_lt.mp hv)).symm
    rw [hstep]

theorem abPair_proj (f : Nat) (b : Board) (s : Side) (al be : Int) :
    ∀ (ms : List Move) (p : Move × Int),
      (ms.foldl (abPairStep f b s al be) p).2 = ms.foldl (abStep f b s al be) p.2 := by
  intro ms
  induction ms with
  | nil => intro p; rfl
  | cons m rest ih =>
    intro p
    rw [List.foldl_cons, List.foldl_cons, ih]
    have hstep : (abPairStep f b s al be p m).2 = abStep f b s al be p.2 m := by
      rw [abPairStep, abStep]
      by_cases hc : be ≤ p.2
      · simp only [if_pos hc]
      · simp only [if_neg hc]
        by_cases hv : p.2 < -(abScore f (childB b m) s.opp (-be) (-(max al p.2)))
        · simp only [if_pos hv]
          exact (max_eq_right (le_of_lt hv)).symm
        · simp only [if_neg hv]
          exact (max_eq_left (not_lt.mp hv)).symm
    rw [hstep]

/-- C2: at every position, side and depth, the backed-up score of the
alpha-beta entry point find_best_move equals the backed-up score of the
exhaustive minimax entry point find_best_move_MM (both are absent exactly at
terminal positions and depth 0); the chosen moves may differ. -/
theorem claim_C2_alpha_beta_minimax_score_equal (b : Board) (s : Side) (d : Nat) :
    (find_best_move b s d).map (fun r => r.2)
      = (find_best_move_MM b s d).map (fun r => r.2) := by
  cases d with
  | zero => rfl
  | succ d =>
    cases hg : generate_moves b s with
    | nil => simp only [find_best_move, find_best_move_MM, hg]
    | cons m ms =>
      simp only [find_best_move, find_best_move_MM, hg, Option.map_some']
      rw [abPair_proj, mmPair_proj]
      have h1 := abScore_cons d b s (-(INF b (d+1))) (INF b (d+1)) m ms hg
      rw [neg_neg] at h1
      have h2 := mmScore_cons d b s m ms hg
      rw [show (m, -(abScore d (childB b m) s.opp (-(INF b (d+1))) (INF b (d+1)))).2
            = -(abScore d (childB b m) s.opp (-(INF b (d+1))) (INF b (d+1))) from rfl,
        show (m, -(mmScore d (childB b m) s.opp)).2
            = -(mmScore d (childB b m) s.opp) from rfl]
      rw [← h1, ← h2, abScore_eq_mmScore]

/-- Modelled from the spec: the transposition table, keyed by the position
fingerprint.  The fingerprint is modelled as the (placement, side-to-move)
pair itself, the ideal collision-free digest; an entry stores the search
depth it was computed at and the backed-up score. -/
def TT : Type := List ((Board × Side) × (Nat × Int))

/-- The empty (cleared) transposition table. -/
def ttEmpty : TT := []

/-- Probe the transposition table. -/
def ttProbe (tt : TT) (k : Board × Side) : Option (Nat × Int) :=
  List.lookup k tt

/-- Modelled from the spec: depth-limited search threading the transposition
table: probe by fingerprint and reuse an entry recorded at depth at least the
remaining depth, otherwise search the children and store the backed-up score
at the current depth (the PV table only reorders moves and is omitted). -/
def mmTT : Nat → TT → Board → Side → Int × TT
  | 0, tt, b, s => (evaluate b s, tt)
  | f+1, tt, b, s =>
    let core : TT → Int × TT := fun tt0 =>
      match generate_moves b s with
      | [] => (lossScore (f+1), ((b, s), (f+1, lossScore (f+1))) :: tt0)
      | m :: ms =>
        let first := mmTT f tt0 (childB b m) s.opp
        let r := ms.foldl
          (fun acc m' =>
            let c := mmTT f acc.2 (childB b m') s.opp
            (max acc.1 (-c.1), c.2))
          (-first.1, first.2)
        (r.1, ((b, s), (f+1, r.1)) :: r.2)
    match ttProbe tt (b, s) with
    | some (d, v) => if f+1 ≤ d then (v, tt) else core tt
    | none => core tt

theorem ttProbe_empty (k : Board × Side) : ttProbe ttEmpty k = none := rfl

theorem ttProbe_cons_self (tt : TT) (k : Board × Side) (e : Nat × Int) :
    ttProbe ((k, e) :: tt) k = some e := by
  rw [ttProbe, List.lookup]
  simp

/-- After a search that missed the table at the root, the returned table's
newest entry is the root fingerprint with the depth and returned score. -/
theorem mmTT_root_entry (f : Nat) (tt : TT) (b : Board) (s : Side)
    (h : ttProbe tt (b, s) = none) :
    ∃ rest : TT, (mmTT (f+1) tt b s).2
        = ((b, s), (f+1, (mmTT (f+1) tt b s).1)) :: rest := by
  rw [mmTT, h]
  cases hg : generate_moves b s with
  | nil => exact ⟨tt, rfl⟩
  | cons m ms =>
    refine ⟨_, rfl⟩

/-- C6: transposition-table idempotence for the modelled table-threading
search: two searches of the same position at the same depth, each starting
from a cleared table, return the same score, and re-running the search with
the table left populated by the first run also returns that same score. -/
theorem claim_C6_tt_idempotence (b : Board) (s : Side) (d : Nat) :
    (mmTT d ttEmpty b s).1 = (mmTT d ttEmpty b s).1
      ∧ (mmTT d (mmTT d ttEmpty b s).2 b s).1 = (mmTT d ttEmpty b s).1 := by
  refine ⟨rfl, ?_⟩
  cases d with
  | zero => rfl
  | succ d =>
    obtain ⟨rest, hroot⟩ := mmTT_root_entry d ttEmpty b s (ttProbe_empty (b, s))
    rw [mmTT, hroot, ttProbe_cons_self]
    simp

/-- Split a character list on a separator character. -/
def splitChar (c : Char) : List Char → List (List Char)
  | [] => [[]]
  | a :: rest =>
    if a = c then [] :: splitChar c rest
    else
      match splitChar c rest with
      | [] => [[a]]
      | g :: gs => (a :: g) :: gs

/-- Modelled from the spec: side-to-move letter, 'r' or 'b'. -/
def sideOfChar (c : Char) : Option Side :=
  if c = 'r' then some Side.red else if c = 'b' then some Side.blue else none

/-- Letter of a side. -/
def sideChar : Side → Char
  | Side.red => 'r'
  | Side.blue => 'b'

/-- Numeric value of a digit character. -/
def charVal (c : Char) : Nat := c.toNat - '0'.toNat

/-- Nonzero digit test. -/
def isDig (c : Char) : Bool := decide ('1' ≤ c) && decide (c ≤ '9')

/-- Digit character of a small number. -/
def digitChar (n : Nat) : Char := Char.ofNat ('0'.toNat + n)

/-- Modelled from the spec: parse one rank of the position string: a digit
is that many empty squares, RG/BG is a guard, and an owner letter followed
by a digit is a tower of that stack height. -/
def parseRank : List Char → Option (List (Option Piece))
  | [] => some []
  | 'R' :: 'G' :: rest =>
    (parseRank rest).map (fun l => some ⟨Side.red, PieceKind.guard, 1⟩ :: l)
  | 'B' :: 'G' :: rest =>
    (parseRank rest).map (fun l => some ⟨Side.blue, PieceKind.guard, 1⟩ :: l)
  | 'r' :: c :: rest =>
    if isDig c then
      (parseRank rest).map (fun l => some ⟨Side.red, PieceKind.tower, charVal c⟩ :: l)
    else none
  | 'b' :: c :: rest =>
    if isDig c then
      (parseRank rest).map (fun l => some ⟨Side.blue, PieceKind.tower, charVal c⟩ :: l)
    else none
  | c :: rest =>
    if isDig c then
      (parseRank rest).map (fun l => List.replicate (charVal c) none ++ l)
    else none

/-- Parse a list of rank strings, failing if any rank fails. -/
def seqRanks : List (List Char) → Option (List (List (Option Piece)))
  | [] => some []
  | r :: rs =>
    match parseRank r, seqRanks rs with
    | some pr, some prs => some (pr :: prs)
    | _, _ => none

/-- Modelled from the spec: fen_to_board parses a position string
"rank7/.../rank1 side" into a board and the side to move, failing on
malformed input (ranks must cover exactly 7 squares each). -/
def fen_to_board (str : String) : Option (Board × Side) :=
  match splitChar ' ' str.data with
  | [body, [c]] =>
    match sideOfChar c with
    | none => none
    | some sd =>
      match seqRanks (splitChar '/' body) with
      | none => none
      | some rs =>
        if rs.length == 7 && rs.all (fun r => r.length == 7) then
          some (⟨rs.reverse⟩, sd)
        else none
  | _ => none

/-- Characters of one piece in the position format. -/
def pieceChars : Piece → List Char
  | ⟨Side.red, PieceKind.guard, _⟩ => ['R', 'G']
  | ⟨Side.blue, PieceKind.guard, _⟩ => ['B', 'G']
  | ⟨Side.red, PieceKind.tower, h⟩ => ['r', digitChar h]
  | ⟨Side.blue, PieceKind.tower, h⟩ => ['b', digitChar h]

/-- Serialize one rank, carrying a pending count of empty squares. -/
def serRank : List (Option Piece) → Nat → List Char
  | [], 0 => []
  | [], n+1 => [digitChar (n+1)]
  | none :: rest, n => serRank rest (n+1)
  | some p :: rest, 0 => pieceChars p ++ serRank rest 0
  | some p :: rest, n+1 => digitChar (n+1) :: (pieceChars p ++ serRank rest 0)

/-- Modelled from the spec: serialize a board and side to move back to the
position-string format (top rank first, ranks separated by '/', a space and
the side letter at the end). -/
def board_to_fen (b : Board) (s : Side) : String :=
  ⟨List.intercalate ['/'] (b.grid.reverse.map (fun r => serRank r 0))
    ++ [' ', sideChar s]⟩

/-- The reference position string of the notebooks. -/
def refFen : String := "r3RG5/r16/b16/7/7/7/3BG3 r"

/-- An empty rank. -/
def emptyRow : List (Option Piece) := List.replicate 7 none

/-- The board described by the reference position string, rank 1 first. -/
def refBoard : Board :=
  ⟨[[none, none, none, some ⟨Side.blue, PieceKind.guard, 1⟩, none, none, none],
    emptyRow, emptyRow, emptyRow,
    [some ⟨Side.blue, PieceKind.tower, 1⟩, none, none, none, none, none, none],
    [some ⟨Side.red, PieceKind.tower, 1⟩, none, none, none, none, none, none],
    [some ⟨Side.red, PieceKind.tower, 3⟩, some ⟨Side.red, PieceKind.guard, 1⟩,
      none, none, none, none, none]]⟩

/-- C8: parsing the reference position string and re-serializing reproduces
the original string byte for byte. -/
theorem claim_C8_position_round_trip :
    (fen_to_board refFen).map (fun p => board_to_fen p.1 p.2) = some refFen := by
  decide

/-- The trailing whitespace-separated field of a position string. -/
def sideField (str : String) : Option (List Char) :=
  (splitChar ' ' str.data).getLast?

theorem sideChar_of_sideOfChar (c : Char) (sd : Side)
    (h : sideOfChar c = some sd) : sideChar sd = c := by
  rw [sideOfChar] at h
  split_ifs at h with h1 h2
  · cases h; rw [sideChar]; exact h1.symm
  · cases h; rw [sideChar]; exact h2.symm

/-- C9: whenever fen_to_board succeeds, the returned side is exactly the
side letter of the trailing field of the string ('r' or 'b'), directly usable
as the player argument of generate_moves and the search entry points. -/
theorem claim_C9_side_from_trailing_field (str : String) (b : Board) (sd : Side)
    (h : fen_to_board str = some (b, sd)) :
    sideField str = some [sideChar sd] ∧ (sideChar sd = 'r' ∨ sideChar sd = 'b') := by
  rw [fen_to_board] at h
  rcases hsp : splitChar ' ' str.data with _ | ⟨body, tl⟩
  · rw [hsp] at h; exact absurd h (by simp)
  · rw [hsp] at h
    rcases tl with _ | ⟨e2, tl2⟩
    · exact absurd h (by simp)
    · rcases tl2 with _ | ⟨e3, tl3⟩
      · rcases e2 with _ | ⟨c, cs⟩
        · exact absurd h (by simp)
        · rcases cs with _ | _
          · cases hso : sideOfChar c with
            | none => simp [hso] at h
            | some sd' =>
              simp only [hso] at h
              cases hmap : seqRanks (splitChar '/' body) with
              | none => simp [hmap] at h
              | some rs =>
                simp only [hmap] at h
                split at h
                · have hpair := Option.some.inj h
                  have hsd : sd' = sd := congrArg Prod.snd hpair
                  subst hsd
                  constructor
                  · rw [sideField, hsp]
                    rw [sideChar_of_sideOfChar c sd' hso]
                    rfl
                  · cases sd' <;> simp [sideChar]
                · exact absurd h (by simp)
          · exact absurd h (by simp)
      · exact absurd h (by simp)

/-- C9 witness at the reference string. -/
theorem claim_C9_witness :
    sideField refFen = some [sideChar Side.red]
      ∧ (sideChar Side.red = 'r' ∨ sideChar Side.red = 'b') :=
  claim_C9_side_from_trailing_field refFen refBoard Side.red (by decide)

/-- Modelled from the spec: the unseeded random source, embedded as an
explicit linear congruential generator state. -/
def rngNext (g : Nat) : Nat := (g * 1103515245 + 12345) % 2147483648

/-- Pick a pseudo-random index below n (0 when n = 0), with the new state. -/
def rngPick (g n : Nat) : Nat × Nat :=
  let g' := rngNext g
  (if n = 0 then 0 else g' % n, g')

/-- Ply cutoff of the modelled random playouts. -/
def ROLLOUT_FUEL : Nat := 4

/-- Modelled from the spec: uniformly-random playout to a terminal position
or a bounded ply cutoff, scored from the perspective of the side to move at
the playout start (a moveless side scores a decisive loss, cutoffs score by
the evaluator). -/
def rollout : Nat → Board → Side → Nat → Int × Nat
  | 0, b, s, g => (evaluate b s, g)
  | f+1, b, s, g =>
    match generate_moves b s with
    | [] => (-MATE, g)
    | m :: ms =>
      let pick := rngPick g (ms.length + 1)
      let mv := (m :: ms).getD pick.1 m
      let r := rollout f (childB b mv) s.opp pick.2
      (-r.1, r.2)

/-- Modelled from the spec: one MCTS node, stored arena-style: children and
parent are indices into a flat node list, never ownership links. -/
structure MNode where
  parent : Option Nat
  mv : Option Move
  board : Board
  side : Side
  visits : Nat
  total : Int
  children : List Nat
  untried : List Move
deriving Repr

/-- Placeholder node for out-of-range reads. -/
def defaultMNode : MNode := ⟨none, none, ⟨[]⟩, Side.red, 0, 0, [], []⟩

/-- Read a node of the arena. -/
def getN (st : List MNode) (i : Nat) : MNode := st.getD i defaultMNode

/-- Update a node of the arena in place (no-op out of range). -/
def updN (st : List MNode) (i : Nat) (f : MNode → MNode) : List MNode :=
  st.set i (f (getN st i))

/-- Fuelled base-2 logarithm. -/
def log2F : Nat → Nat → Nat
  | 0, _ => 0
  | fuel+1, n => if n ≤ 1 then 0 else 1 + log2F fuel (n / 2)

/-- Base-2 logarithm (floor). -/
def log2A (n : Nat) : Nat := log2F n n

/-- Fuelled Newton iteration for the integer square root. -/
def isqrtGo : Nat → Nat → Nat → Nat
  | 0, _, x => x
  | fuel+1, n, x =>
    let y := (x + n / x) / 2
    if y < x then isqrtGo fuel n y else x

/-- Integer square root (floor). -/
def isqrtA (n : Nat) : Nat := if n ≤ 1 then n else isqrtGo n n (n / 2 + 1)

/-- Modelled from the spec: integer-scaled UCT priority of child j under a
parent with pv visits (average outcome plus an exploration term proportional
to the square root of the logarithm of the parent visits over the child
visits; the transcendental functions of the spec are approximated by integer
log2A and isqrtA, which does not affect the claims proved about the search). -/
def uctVal (st : List MNode) (pv : Nat) (j : Nat) : Int :=
  let nd := getN st j
  (1000 * nd.total) / (nd.visits : Int)
    + Int.ofNat (isqrtA (2000000 * log2A (pv + 1) / nd.visits))

/-- Select the UCT-preferred child of node i (first on ties). -/
def pickChild (st : List MNode) (i : Nat) : Nat :=
  match (getN st i).children with
  | [] => 0
  | c :: cs =>
    cs.foldl
      (fun best j =>
        if uctVal st (getN st i).visits best < uctVal st (getN st i).visits j then j
        else best)
      c

/-- Modelled from the spec: selection phase — descend by UCT priority until
reaching a node with untried moves or no children; returns the index path
from the given node. -/
def selPath (st : List MNode) : Nat → Nat → List Nat
  | 0, i => [i]
  | fuel+1, i =>
    if (getN st i).untried.isEmpty && !(getN st i).children.isEmpty then
      i :: selPath st fuel (pickChild st i)
    else [i]

/-- Record one playout outcome at node i. -/
def bumpN (st : List MNode) (i : Nat) (v : Int) : List MNode :=
  updN st i (fun n => { n with visits := n.visits + 1, total := n.total + v })

/-- Modelled from the spec: backpropagation — walk the (leaf-first) path,
adding one visit everywhere and the outcome with alternating sign. -/
def backprop : List Nat → Int → List MNode → List MNode
  | [], _, st => st
  | i :: rest, v, st => backprop rest (-v) (bumpN st i v)

/-- Modelled from the spec: one MCTS iteration:
selection, expansion (when the selected leaf has untried moves), simulation
from the new (or selected) node, and backpropagation along the path. -/
def mctsIter (st : List MNode) (g : Nat) : List MNode × Nat :=
  let path := selPath st st.length 0
  let leaf := path.getLastD 0
  match (getN st leaf).untried with
  | [] =>
    let r := rollout ROLLOUT_FUEL (getN st leaf).board (getN st leaf).side g
    (backprop path.reverse r.1 st, r.2)
  | m :: rest =>
    let cb := childB (getN st leaf).board m
    let newIdx := st.length
    let st1 := updN st leaf
      (fun n => { n with untried := rest, children := n.children ++ [newIdx] })
    let st2 := st1 ++ [⟨some leaf, some m, cb, (getN st leaf).side.opp, 0, 0, [],
      generate_moves cb (getN st leaf).side.opp⟩]
    let r := rollout ROLLOUT_FUEL cb (getN st leaf).side.opp g
    (backprop (path ++ [newIdx]).reverse r.1 st2, r.2)

/-- Run a fixed number of MCTS iterations. -/
def mctsLoop : Nat → List MNode × Nat → List MNode × Nat
  | 0, p => p
  | n+1, p => mctsLoop n (mctsIter p.1 p.2)

/-- Fresh root node for a search. -/
def rootNode (b : Board) (s : Side) : MNode :=
  ⟨none, none, b, s, 0, 0, [], generate_moves b s⟩

/-- The arena after running the whole simulation budget. -/
def mctsFinal (b : Board) (s : Side) (n : Nat) (g : Nat) : List MNode :=
  (mctsLoop n ([rootNode b s], g)).1

/-- Modelled from the spec: mcts_find_best_move — run the simulation budget
and return the move of the most-visited root child (first on ties), or
nothing when the root has no children. -/
def mcts_find_best_move (b : Board) (s : Side) (simulations : Nat) (g : Nat) :
    Option Move :=
  match (getN (mctsFinal b s simulations g) 0).children with
  | [] => none
  | c :: cs =>
    (getN (mctsFinal b s simulations g)
      (cs.foldl
        (fun best j =>
          if (getN (mctsFinal b s simulations g) best).visits
              < (getN (mctsFinal b s simulations g) j).visits then j
          else best)
        c)).mv

theorem list_mem_set {α : Type} :
    ∀ (l : List α) (i : Nat) (v : α) (x : α), x ∈ l.set i v → x = v ∨ x ∈ l := by
  intro l
  induction l with
  | nil => intro i v x h; simp at h
  | cons a t ih =>
    intro i v x h
    cases i with
    | zero =>
      rcases List.mem_cons.mp h with h | h
      · exact Or.inl h
      · exact Or.inr (List.mem_cons_of_mem a h)
    | succ i' =>
      rcases List.mem_cons.mp h with h | h
      · exact Or.inr (h ▸ List.mem_cons_self a t)
      · rcases ih i' v x h with h | h
        · exact Or.inl h
        · exact Or.inr (List.mem_cons_of_mem a h)

theorem list_getD_append {α : Type} :
    ∀ (l l' : List α) (i : Nat) (d : α), i < l.length →
      (l ++ l').getD i d = l.getD i d := by
  intro l
  induction l with
  | nil => intro l' i d h; simp at h
  | cons a t ih =>
    intro l' i d h
    cases i with
    | zero => rfl
    | succ i' => simpa using ih l' i' d (by simpa using h)

theorem list_getD_mem {α : Type} :
    ∀ (l : List α) (i : Nat) (d : α), i < l.length → l.getD i d ∈ l := by
  intro l
  induction l with
  | nil => intro i d h; simp at h
  | cons a t ih =>
    intro i d h
    cases i with
    | zero => exact List.mem_cons_self a t
    | succ i' => exact List.mem_cons_of_mem a (ih i' d (by simpa using h))

theorem foldl_choice_mem {α : Type} (step : α → α → α)
    (hsel : ∀ x y, step x y = x ∨ step x y = y) :
    ∀ (l : List α) (a : α), l.foldl step a = a ∨ l.foldl step a ∈ l := by
  intro l
  induction l with
  | nil => intro a; exact Or.inl rfl
  | cons c rest ih =>
    intro a
    rw [List.foldl_cons]
    rcases ih (step a c) with h | h
    · rcases hsel a c with h' | h'
      · exact Or.inl (h.trans h')
      · exact Or.inr (by rw [h, h']; exact List.mem_cons_self c rest)
    · exact Or.inr (List.mem_cons_of_mem c h)

theorem foldl_argmax_ge {α : Type} (f : α → Nat) :
    ∀ (l : List α) (a : α) (x : α), x ∈ a :: l →
      f x ≤ f (l.foldl (fun best j => if f best < f j then j else best) a) := by
  intro l
  induction l with
  | nil =>
    intro a x hx
    rcases List.mem_cons.mp hx with h | h
    · exact h ▸ le_refl _
    · simp at h
  | cons c rest ih =>
    intro a x hx
    rw [List.foldl_cons]
    have hstep_a : f a ≤ f (if f a < f c then c else a) := by
      split
      · omega
      · exact le_refl _
    have hstep_c : f c ≤ f (if f a < f c then c else a) := by
      split
      · exact le_refl _
      · omega
    have hhead : (if f a < f c then c else a) ∈ (if f a < f c then c else a) :: rest :=
      List.mem_cons_self _ _
    rcases List.mem_cons.mp hx with h | h
    · exact le_trans (h ▸ hstep_a) (ih _ _ hhead)
    · rcases List.mem_cons.mp h with h' | h'
      · exact le_trans (h' ▸ hstep_c) (ih _ _ hhead)
      · exact ih _ x (List.mem_cons_of_mem _ h')

theorem getN_updN_ne (st : List MNode) (i j : Nat) (f : MNode → MNode)
    (h : j ≠ i) : getN (updN st i f) j = getN st j :=
  list_getD_set_ne st i j _ defaultMNode (fun hh => h hh.symm)

theorem getN_updN_self (st : List MNode) (i : Nat) (f : MNode → MNode)
    (h : i < st.length) : getN (updN st i f) i = f (getN st i) :=
  list_getD_set_self st i _ defaultMNode h

theorem length_updN (st : List MNode) (i : Nat) (f : MNode → MNode) :
    (updN st i f).length = st.length := List.length_set st i _

/-- Arena invariant: the arena is nonempty (the root is node 0) and child
links always point past the root. -/
def MInv (st : List MNode) : Prop :=
  0 < st.length ∧ ∀ nd ∈ st, ∀ c ∈ nd.children, 1 ≤ c

theorem MInv_children_pos (st : List MNode) (h : MInv st) (i : Nat) :
    ∀ c ∈ (getN st i).children, 1 ≤ c := by
  by_cases hi : i < st.length
  · exact h.2 (getN st i) (list_getD_mem st i defaultMNode hi)
  · intro c hc
    rw [getN, list_getD_of_length_le st i defaultMNode (Nat.le_of_not_lt hi)] at hc
    simp [defaultMNode] at hc

theorem MInv_updN (st : List MNode) (i : Nat) (f : MNode → MNode) (h : MInv st)
    (hf : ∀ nd, (∀ c ∈ nd.children, 1 ≤ c) → ∀ c ∈ (f nd).children, 1 ≤ c) :
    MInv (updN st i f) := by
  refine ⟨by rw [length_updN]; exact h.1, ?_⟩
  intro nd hnd c hc
  rcases list_mem_set st i (f (getN st i)) nd hnd with h' | h'
  · exact hf (getN st i) (MInv_children_pos st h i) c (h' ▸ hc)
  · exact h.2 nd h' c hc

theorem MInv_bumpN (st : List MNode) (i : Nat) (v : Int) (h : MInv st) :
    MInv (bumpN st i v) :=
  MInv_updN st i _ h (fun nd hnd => hnd)

theorem length_bumpN (st : List MNode) (i : Nat) (v : Int) :
    (bumpN st i v).length = st.length := length_updN st i _

theorem MInv_backprop :
    ∀ (path : List Nat) (v : Int) (st : List MNode), MInv st →
      MInv (backprop path v st) := by
  intro path
  induction path with
  | nil => intro v st h; exact h
  | cons i rest ih =>
    intro v st h
    exact ih (-v) (bumpN st i v) (MInv_bumpN st i v h)

theorem length_backprop :
    ∀ (path : List Nat) (v : Int) (st : List MNode),
      (backprop path v st).length = st.length := by
  intro path
  induction path with
  | nil => intro v st; rfl
  | cons i rest ih =>
    intro v st
    rw [backprop, ih, length_bumpN]

theorem visits_backprop_last :
    ∀ (l : List Nat) (v : Int) (st : List MNode), (∀ j ∈ l, 1 ≤ j) →
      0 < st.length →
      (getN (backprop (l ++ [0]) v st) 0).visits = (getN st 0).visits + 1 := by
  intro l
  induction l with
  | nil =>
    intro v st _ hlen
    show (getN (bumpN st 0 v) 0).visits = (getN st 0).visits + 1
    rw [bumpN, getN_updN_self st 0 _ hlen]
  | cons j rest ih =>
    intro v st hmem hlen
    rw [List.cons_append, backprop]
    have hj : 1 ≤ j := hmem j (List.mem_cons_self j rest)
    rw [ih (-v) (bumpN st j v) (fun x hx => hmem x (List.mem_cons_of_mem j hx))
      (by rw [length_bumpN]; exact hlen)]
    rw [bumpN, getN_updN_ne st j 0 _ (by omega)]

theorem getN0_bumpN_ne (st : List MNode) (j : Nat) (v : Int) (h : 1 ≤ j) :
    getN (bumpN st j v) 0 = getN st 0 :=
  getN_updN_ne st j 0 _ (by omega)

theorem pickChild_mem (st : List MNode) (i : Nat) (c : Nat) (cs : List Nat)
    (h : (getN st i).children = c :: cs) :
    pickChild st i ∈ (getN st i).children := by
  have hpc : pickChild st i
      = cs.foldl
          (fun best j =>
            if uctVal st (getN st i).visits best < uctVal st (getN st i).visits j then j
            else best)
          c := by
    rw [pickChild, h]
  rw [hpc, h]
  have hfm := foldl_choice_mem
    (fun best j =>
      if uctVal st (getN st i).visits best < uctVal st (getN st i).visits j then j
      else best)
    (fun x y => by
      show (if uctVal st (getN st i).visits x < uctVal st (getN st i).visits y
          then y else x) = x
        ∨ (if uctVal st (getN st i).visits x < uctVal st (getN st i).visits y
          then y else x) = y
      split
      · exact Or.inr rfl
      · exact Or.inl rfl)
    cs c
  rcases hfm with hm | hm
  · rw [hm]; exact List.mem_cons_self c cs
  · exact List.mem_cons_of_mem c hm

theorem selPath_pos (st : List MNode) (h : MInv st) :
    ∀ (fuel i : Nat), 1 ≤ i → ∀ j ∈ selPath st fuel i, 1 ≤ j := by
  intro fuel
  induction fuel with
  | zero =>
    intro i hi j hj
    rw [selPath] at hj
    rcases List.mem_cons.mp hj with h' | h'
    · omega
    · simp at h'
  | succ fuel ih =>
    intro i hi j hj
    rw [selPath] at hj
    split at hj
    · rcases List.mem_cons.mp hj with h' | h'
      · omega
      · rename_i hcond
        have hch : (getN st i).children ≠ [] := by
          intro hempty
          rw [hempty] at hcond
          simp at hcond
        cases hche : (getN st i).children with
        | nil => exact absurd hche hch
        | cons c cs =>
          have hpc := pickChild_mem st i c cs hche
          have hpc1 : 1 ≤ pickChild st i := by
            rw [hche] at hpc
            exact MInv_children_pos st h i (pickChild st i) (hche ▸ hpc)
          exact ih (pickChild st i) hpc1 j h'
    · rcases List.mem_cons.mp hj with h' | h'
      · omega
      · simp at h'

theorem selPath_root (st : List MNode) (h : MInv st) (fuel : Nat) :
    ∃ tl, selPath st fuel 0 = 0 :: tl ∧ ∀ j ∈ tl, 1 ≤ j := by
  cases fuel with
  | zero => exact ⟨[], rfl, by intro j hj; simp at hj⟩
  | succ fuel =>
    rw [selPath]
    split
    · rename_i hcond
      refine ⟨selPath st fuel (pickChild st 0), rfl, ?_⟩
      have hch : (getN st 0).children ≠ [] := by
        intro hempty
        rw [hempty] at hcond
        simp at hcond
      cases hche : (getN st 0).children with
      | nil => exact absurd hche hch
      | cons c cs =>
        have hpc := pickChild_mem st 0 c cs hche
        have hpc1 : 1 ≤ pickChild st 0 :=
          MInv_children_pos st h 0 (pickChild st 0) hpc
        exact selPath_pos st h fuel (pickChild st 0) hpc1
    · exact ⟨[], rfl, by intro j hj; simp at hj⟩

theorem list_getLastD_mem {α : Type} :
    ∀ (l : List α) (d : α), l ≠ [] → l.getLastD d ∈ l := by
  intro l
  induction l with
  | nil => intro d h; exact absurd rfl h
  | cons a t ih =>
    intro d _
    cases t with
    | nil => exact List.mem_cons_self a []
    | cons x xs =>
      rw [List.getLastD_cons]
      exact List.mem_cons_of_mem a (ih a (by simp))

theorem mctsIter_visits (st : List MNode) (g : Nat) (h : MInv st) :
    (getN (mctsIter st g).1 0).visits = (getN st 0).visits + 1
      ∧ MInv (mctsIter st g).1 := by
  obtain ⟨tl, hpath, htl⟩ := selPath_root st h st.length
  simp only [mctsIter, hpath]
  set leaf := (0 :: tl).getLastD 0 with hleaf
  have hleaf01 : leaf = 0 ∨ 1 ≤ leaf := by
    cases tl with
    | nil => exact Or.inl rfl
    | cons a tl' =>
      refine Or.inr (htl leaf ?_)
      rw [hleaf, List.getLastD_cons]
      exact list_getLastD_mem (a :: tl') 0 (by simp)
  cases huntried : (getN st leaf).untried with
  | nil =>
    simp only [huntried]
    constructor
    · rw [show (0 :: tl).reverse = tl.reverse ++ [0] by simp]
      exact visits_backprop_last tl.reverse _ st
        (fun j hj => htl j (List.mem_reverse.mp hj)) h.1
    · exact MInv_backprop _ _ st h
  | cons m rest =>
    simp only [huntried]
    have hlen1 : (updN st leaf
        (fun n => { n with untried := rest, children := n.children ++ [st.length] })).length
        = st.length := length_updN st leaf _
    set st1 := updN st leaf
      (fun n => { n with untried := rest, children := n.children ++ [st.length] })
      with hst1
    set nd2 : MNode := ⟨some leaf, some m, childB (getN st leaf).board m,
      (getN st leaf).side.opp, 0, 0, [],
      generate_moves (childB (getN st leaf).board m) (getN st leaf).side.opp⟩ with hnd2
    have hvis1 : (getN st1 0).visits = (getN st 0).visits := by
      rcases hleaf01 with h0 | h1
      · rw [hst1, h0, getN_updN_self st 0 _ h.1]
      · rw [hst1, getN_updN_ne st leaf 0 _ (by omega)]
    have hvis2 : (getN (st1 ++ [nd2]) 0).visits = (getN st 0).visits := by
      rw [getN, list_getD_append st1 [nd2] 0 defaultMNode (by rw [hlen1]; exact h.1)]
      exact hvis1
    have hInv1 : MInv st1 := by
      refine MInv_updN st leaf _ h ?_
      intro nd hnd c hc
      rcases List.mem_append.mp hc with hc | hc
      · exact hnd c hc
      · have hcl : c = st.length := List.mem_singleton.mp hc
        rw [hcl]
        exact h.1
    have hInv2 : MInv (st1 ++ [nd2]) := by
      refine ⟨by simp, ?_⟩
      intro nd hnd c hc
      rcases List.mem_append.mp hnd with hnd | hnd
      · exact hInv1.2 nd hnd c hc
      · have : nd = nd2 := List.mem_singleton.mp hnd
        rw [this] at hc
        simp [hnd2] at hc
    have hrev : ((0 :: tl) ++ [st.length]).reverse
        = (st.length :: tl.reverse) ++ [0] := by
      simp
    constructor
    · rw [hrev]
      rw [visits_backprop_last (st.length :: tl.reverse) _ (st1 ++ [nd2])
        ?_ (by simp)]
      · rw [hvis2]
      · intro j hj
        rcases List.mem_cons.mp hj with hj | hj
        · rw [hj]; exact h.1
        · exact htl j (List.mem_reverse.mp hj)
    · exact MInv_backprop _ _ (st1 ++ [nd2]) hInv2

theorem mctsLoop_visits :
    ∀ (n : Nat) (p : List MNode × Nat), MInv p.1 →
      (getN (mctsLoop n p).1 0).visits = (getN p.1 0).visits + n
        ∧ MInv (mctsLoop n p).1 := by
  intro n
  induction n with
  | zero => intro p h; exact ⟨rfl, h⟩
  | succ n ih =>
    intro p h
    rw [mctsLoop]
    obtain ⟨h1, h2⟩ := mctsIter_visits p.1 p.2 h
    obtain ⟨h3, h4⟩ := ih (mctsIter p.1 p.2) h2
    refine ⟨?_, h4⟩
    rw [h3, h1]
    omega

theorem MInv_init (b : Board) (s : Side) : MInv [rootNode b s] := by
  refine ⟨by simp, ?_⟩
  intro nd hnd c hc
  have : nd = rootNode b s := List.mem_singleton.mp hnd
  rw [this] at hc
  simp [rootNode] at hc

/-- C7: mcts_find_best_move performs exactly `simulations` iterations (each
iteration backpropagates exactly one visit to the root, so the final root
visit count equals the budget), and the returned move is the move of a
most-visited root child. -/
theorem claim_C7_mcts_budget_and_most_visited (b : Board) (s : Side)
    (n : Nat) (g : Nat) :
    (getN (mctsFinal b s n g) 0).visits = n
      ∧ ∀ m : Move, mcts_find_best_move b s n g = some m →
          ∃ j ∈ (getN (mctsFinal b s n g) 0).children,
            (getN (mctsFinal b s n g) j).mv = some m
              ∧ ∀ k ∈ (getN (mctsFinal b s n g) 0).children,
                  (getN (mctsFinal b s n g) k).visits
                    ≤ (getN (mctsFinal b s n g) j).visits := by
  constructor
  · have hv := (mctsLoop_visits n ([rootNode b s], g) (MInv_init b s)).1
    have h0 : (getN ([rootNode b s], g).1 0).visits = 0 := rfl
    rw [mctsFinal, hv, h0]
    exact Nat.zero_add n
  · intro m hm
    rw [mcts_find_best_move] at hm
    cases hch : (getN (mctsFinal b s n g) 0).children with
    | nil =>
      rw [hch] at hm
      exact absurd hm (by simp)
    | cons c cs =>
      simp only [hch] at hm
      refine ⟨cs.foldl
        (fun best j =>
          if (getN (mctsFinal b s n g) best).visits
              < (getN (mctsFinal b s n g) j).visits then j
          else best) c, ?_, hm, ?_⟩
      · have := foldl_choice_mem
          (fun best j =>
            if (getN (mctsFinal b s n g) best).visits
                < (getN (mctsFinal b s n g) j).visits then j
            else best)
          (fun x y => by
            show (if (getN (mctsFinal b s n g) x).visits
                < (getN (mctsFinal b s n g) y).visits then y else x) = x
              ∨ (if (getN (mctsFinal b s n g) x).visits
                < (getN (mctsFinal b s n g) y).visits then y else x) = y
            split
            · exact Or.inr rfl
            · exact Or.inl rfl)
          cs c
        rcases this with h' | h'
        · rw [h']; exact List.mem_cons_self c cs
        · exact List.mem_cons_of_mem c h'
      · intro k hk
        exact foldl_argmax_ge (fun j => (getN (mctsFinal b s n g) j).visits) cs c k hk

/-- A state whose root has no children and no untried moves. -/
def movelessP (st : List MNode) : Prop :=
  0 < st.length ∧ (getN st 0).children = [] ∧ (getN st 0).untried = []

theorem selPath_moveless (st : List MNode) (h : movelessP st) :
    ∀ fuel, selPath st fuel 0 = [0] := by
  intro fuel
  cases fuel with
  | zero => rfl
  | succ fuel =>
    rw [selPath, if_neg]
    rw [h.2.1, h.2.2]
    simp

theorem mctsIter_moveless (st : List MNode) (g : Nat) (h : movelessP st) :
    movelessP (mctsIter st g).1 := by
  simp only [mctsIter, selPath_moveless st h st.length]
  have hleaf : ([0] : List Nat).getLastD 0 = 0 := rfl
  rw [hleaf, h.2.2]
  show movelessP (backprop [0] _ st)
  show movelessP (bumpN st 0 _)
  refine ⟨by rw [length_bumpN]; exact h.1, ?_, ?_⟩
  · rw [bumpN, getN_updN_self st 0 _ h.1]
    exact h.2.1
  · rw [bumpN, getN_updN_self st 0 _ h.1]
    exact h.2.2

theorem mctsLoop_moveless :
    ∀ (n : Nat) (p : List MNode × Nat), movelessP p.1 →
      movelessP (mctsLoop n p).1 := by
  intro n
  induction n with
  | zero => intro p h; exact h
  | succ n ih =>
    intro p h
    rw [mctsLoop]
    exact ih (mctsIter p.1 p.2) (mctsIter_moveless p.1 p.2 h)

theorem mcts_moveless_none (b : Board) (s : Side) (n g : Nat)
    (h : generate_moves b s = []) : mcts_find_best_move b s n g = none := by
  have h0 : movelessP [rootNode b s] := by
    refine ⟨by simp, rfl, ?_⟩
    show (rootNode b s).untried = []
    rw [rootNode]
    exact h
  have hfin := mctsLoop_moveless n ([rootNode b s], g) h0
  have hch : (getN (mctsFinal b s n g) 0).children = [] := hfin.2.1
  rw [mcts_find_best_move, hch]

/-- A completely empty board: no side has a legal move on it. -/
def emptyBoard : Board := ⟨List.replicate 7 emptyRow⟩

/-- C5 counterexample: the MCTS playout scores a moveless position with the
same flat decisive magnitude however much playout budget is left, so the MCTS
entry point exhibits no preference of a shallower decisive result over a
deeper one (the minimax searches do; see the amended theorem). -/
theorem claim_C5_counterexample :
    (rollout 1 emptyBoard Side.red 37).1 = -MATE
      ∧ (rollout 2 emptyBoard Side.red 37).1 = -MATE
      ∧ ¬((rollout 2 emptyBoard Side.red 37).1
          < (rollout 1 emptyBoard Side.red 37).1) := by
  decide

/-- C5 (amended): at a position where the side to move has no legal move, all
three search entry points return normally (with no move); the two minimax
searches score the position as the decisive loss -(MATE+depth) and the MCTS
playout as the decisive loss -MATE, magnitudes exceeding every heuristic
score of a bounded-material board (|evaluate| < MATE ≤ MATE+depth); the
shallower-over-deeper preference holds for the minimax searches, whose
decisive loss is strictly more negative the more budget is left. -/
theorem claim_C5_no_legal_moves_handling (b : Board) (s : Side) (d n g : Nat)
    (h : generate_moves b s = []) :
    find_best_move b s (d+1) = none
      ∧ find_best_move_MM b s (d+1) = none
      ∧ mcts_find_best_move b s n g = none
      ∧ mmScore (d+1) b s = lossScore (d+1)
      ∧ abScore (d+1) b s (-(INF b (d+1))) (INF b (d+1)) = lossScore (d+1)
      ∧ (rollout (d+1) b s g).1 = -MATE
      ∧ (∀ (b' : Board) (s' : Side), totalMaterial b' ≤ 900 →
          |evaluate b' s'| < MATE)
      ∧ (∀ f1 f2 : Nat, f1 < f2 → lossScore f2 < lossScore f1) := by
  refine ⟨?_, ?_, mcts_moveless_none b s n g h, mmScore_nil d b s h,
    abScore_nil d b s _ _ h, ?_, ?_, ?_⟩
  · simp only [find_best_move, h]
  · simp only [find_best_move_MM, h]
  · rw [rollout, h]
  · intro b' s' hT
    have he := evaluate_abs_le b' s'
    have hc : (totalMaterial b' : Int) ≤ 900 := by exact_mod_cast hT
    rw [abs_lt]
    rw [abs_le] at he
    simp only [MATE]
    omega
  · intro f1 f2 hf
    simp only [lossScore]
    omega

/-- C5 witness at the empty board with red to move, depth 1, one simulation. -/
theorem claim_C5_witness :
    find_best_move emptyBoard Side.red (0+1) = none
      ∧ find_best_move_MM emptyBoard Side.red (0+1) = none
      ∧ mcts_find_best_move emptyBoard Side.red 1 37 = none
      ∧ mmScore (0+1) emptyBoard Side.red = lossScore (0+1)
      ∧ abScore (0+1) emptyBoard Side.red (-(INF emptyBoard (0+1)))
          (INF emptyBoard (0+1)) = lossScore (0+1)
      ∧ (rollout (0+1) emptyBoard Side.red 37).1 = -MATE
      ∧ (∀ (b' : Board) (s' : Side), totalMaterial b' ≤ 900 →
          |evaluate b' s'| < MATE)
      ∧ (∀ f1 f2 : Nat, f1 < f2 → lossScore f2 < lossScore f1) :=
  claim_C5_no_legal_moves_handling emptyBoard Side.red 0 1 37 (by decide)

/-- A small position used as concrete input for the MCTS witnesses. -/
def witBoard : Board :=
  ⟨[[some ⟨Side.red, PieceKind.tower, 1⟩, none, none, none, none, none, none]]
    ++ List.replicate 6 emptyRow⟩

/-- C7 witness: a concrete one-simulation search. -/
theorem claim_C7_witness :
    (getN (mctsFinal witBoard Side.red 1 5) 0).visits = 1
      ∧ ∀ m : Move, mcts_find_best_move witBoard Side.red 1 5 = some m →
          ∃ j ∈ (getN (mctsFinal witBoard Side.red 1 5) 0).children,
            (getN (mctsFinal witBoard Side.red 1 5) j).mv = some m
              ∧ ∀ k ∈ (getN (mctsFinal witBoard Side.red 1 5) 0).children,
                  (getN (mctsFinal witBoard Side.red 1 5) k).visits
                    ≤ (getN (mctsFinal witBoard Side.red 1 5) j).visits :=
  claim_C7_mcts_budget_and_most_visited witBoard Side.red 1 5

/-- A small mixed position on which the modelled MCTS is sensitive to the
random source. -/
def mctsProbeBoard : Board :=
  ⟨[[some ⟨Side.red, PieceKind.tower, 2⟩, none, some ⟨Side.blue, PieceKind.tower, 1⟩,
      none, none, none, none],
    [none, some ⟨Side.blue, PieceKind.tower, 1⟩, none, none, none, none, none],
    [some ⟨Side.blue, PieceKind.tower, 2⟩, none, some ⟨Side.red, PieceKind.guard, 1⟩,
      none, none, none, none],
    emptyRow, emptyRow, emptyRow, emptyRow]⟩

/-- C10: with the unseeded random source embedded as an explicit generator
state, mcts_find_best_move is not a function of (board, side, simulations)
alone: two runs with identical arguments but different generator states
return different moves; the minimax entry points take no random source and
are fixed functions of their arguments by construction. -/
theorem claim_C10_mcts_not_deterministic :
    mcts_find_best_move mctsProbeBoard Side.red 10 0
      ≠ mcts_find_best_move mctsProbeBoard Side.red 10 1 := by
  decide

/-- Recorded output of the alpha-beta benchmark cell (find_best_move with
transposition table and pruning) for position 'r3RG5/r16/b16/7/7/7/3BG3 r':
the printed per-depth move counters after the depth 1..6 runs. -/
def recorded_AB_counters_ref1 : List (Nat × Nat) :=
  [(1, 6), (2, 38), (3, 110), (4, 285), (5, 1253), (6, 1638), (7, 2846)]

/-- Recorded output of the alpha-beta benchmark cell for position
'b76/3RG3/7/7/7/7/3BG3 b'. -/
def recorded_AB_counters_ref2 : List (Nat × Nat) :=
  [(1, 15), (2, 64), (3, 587), (4, 1335), (5, 12060), (6, 18736), (7, 97591)]

/-- Recorded output of the exhaustive minimax benchmark cell
(find_best_move_MM) for position 'r3RG5/r16/b16/7/7/7/3BG3 r'. -/
def recorded_MM_counters_ref1 : List (Nat × Nat) :=
  [(1, 6), (2, 32), (3, 219), (4, 1218), (5, 10859), (6, 62771), (7, 632519)]

/-- Recorded output of the exhaustive minimax benchmark cell for position
'b76/3RG3/7/7/7/7/3BG3 b'. -/
def recorded_MM_counters_ref2 : List (Nat × Nat) :=
  [(1, 15), (2, 60), (3, 945), (4, 3517), (5, 59634), (6, 220917), (7, 3984485)]

/-- The per-depth leaf counts the claim attributes to the exhaustive
(minimax) search for position 'r3RG5/r16/b16/7/7/7/3BG3 r'. -/
def claimed_counters_ref1 : List (Nat × Nat) :=
  [(1, 6), (2, 38), (3, 110), (4, 285), (5, 1253), (6, 1638)]

/-- The per-depth leaf counts the claim attributes to the exhaustive
(minimax) search for position 'b76/3RG3/7/7/7/7/3BG3 b'. -/
def claimed_counters_ref2 : List (Nat × Nat) :=
  [(1, 15), (2, 64), (3, 587), (4, 1335), (5, 12060), (6, 18736)]

/-- C1 counterexample: the counts the claim attributes to the exhaustive
minimax search disagree with the counters the notebook records for the
exhaustive minimax run (already at depth 2 of the first position: claimed 38,
recorded 32), for both reference positions. -/
theorem claim_C1_counterexample :
    List.lookup 2 claimed_counters_ref1 = some 38
      ∧ List.lookup 2 recorded_MM_counters_ref1 = some 32
      ∧ claimed_counters_ref1 ≠ recorded_MM_counters_ref1.take 6
      ∧ claimed_counters_ref2 ≠ recorded_MM_counters_ref2.take 6 := by
  decide

/-- C1 amended: the claimed per-depth counts at depths 1..6 are exactly the
counters the notebook records for the alpha-beta search find_best_move (with
transposition table and pruning), not for the exhaustive minimax search. -/
theorem claim_C1_counts_are_alpha_beta :
    claimed_counters_ref1 = recorded_AB_counters_ref1.take 6
      ∧ claimed_counters_ref2 = recorded_AB_counters_ref2.take 6 := by
  decide

/-- C4 witness: a concrete generated move applied on a concrete board. -/
theorem claim_C4_witness :
    (applyMove witBoard (Move.mk 0 0 1 0 1)).isSome = true
      ∧ totalMaterial ((applyMove witBoard (Move.mk 0 0 1 0 1)).getD witBoard)
          ≤ totalMaterial witBoard :=
  claim_C4_move_legality_closure witBoard Side.red (Move.mk 0 0 1 0 1) (by decide)
